import Mathlib

/-!
A shallow embedding of the markup-to-ANSI colorizer implemented in
`src/_canary/third_party/color.py`, together with theorems settling the
specification's claims about it.

Python strings are modelled as Lean `String` / `List Char`.  The single use of
`re.sub` over the fixed pattern

  `color_re = "@(?:@|\.|([*_\x60])?([a-zA-Z])?(?:{((?:[^\x7d]|}})*)})?)"`

is implemented as a direct left-to-right scanner (`subScan`): the pattern can
only match at an `@`, it always succeeds there, and its optional groups admit
a deterministic greedy parse (`parseTok`), with the body group's backtracking
captured by `bodyMatch`.  `clen` / `cstrip` / `cextra` implement the regex
`"\x1b[^m]*m"` (an ESC, then everything up to and including the next `m`) as
the mutual scan `csNorm` / `csEsc`.  `ccenter` reproduces CPython's
`str.center` arithmetic (`pyCenter`) and `str.replace` (`pyReplace`),
including the empty-pattern case.

Recursions that consume a variable number of characters per step are written
with an explicit fuel argument (always instantiated with `length + 1`, which
is proved sufficient), so that every definition evaluates by kernel reduction.
-/

namespace Canary

/-- The backquote style character (ASCII 96). -/
def backquote : Char := Char.ofNat 96

/-- The ESC control byte that introduces an ANSI escape sequence. -/
def escChar : Char := Char.ofNat 27

/-- A unit matched by `color_re`:
`lit` is `@@`, `reset` is `@.`, and `styled st co body` is a match of the
third alternative with its three optional groups (style char, color letter,
brace-enclosed body). A `styled none none none` is a lone `@`. -/
inductive MarkupToken where
  | lit : MarkupToken
  | reset : MarkupToken
  | styled : Option Char → Option Char → Option (List Char) → MarkupToken
  deriving DecidableEq

/-- `ColorParseError`, with the data the two `raise` sites put into the
message: the offending fragment (always `"@"`) resp. the offending color
letter, together with `match.string`, the full input being colorized. -/
inductive ColorParseError where
  | incomplete : String → String → ColorParseError
  | invalidColor : Char → String → ColorParseError
  deriving DecidableEq

/-- Whether an error is the incomplete-color-format kind. -/
def ColorParseError.isIncomplete : ColorParseError → Bool
  | .incomplete _ _ => true
  | .invalidColor _ _ => false

instance exceptDecEq {ε α : Type} [DecidableEq ε] [DecidableEq α] :
    DecidableEq (Except ε α) := fun a b =>
  match a, b with
  | .error x, .error y =>
    if h : x = y then .isTrue (by rw [h]) else .isFalse (fun he => h (by cases he; rfl))
  | .ok x, .ok y =>
    if h : x = y then .isTrue (by rw [h]) else .isFalse (fun he => h (by cases he; rfl))
  | .error _, .ok _ => .isFalse (fun he => Except.noConfusion he)
  | .ok _, .error _ => .isFalse (fun he => Except.noConfusion he)

/-- The `styles` table: `*` ↦ "1" (bold), `_` ↦ "4" (underline),
backquote ↦ "3" (italic), `None` ↦ "0" (plain).  The regex only ever
produces these keys; the catch-all mirrors the `None` entry. -/
def styles (st : Option Char) : List Char :=
  match st with
  | some c =>
    if c = '*' then ['1']
    else if c = '_' then ['4']
    else if c = backquote then ['3']
    else ['0']
  | none => ['0']

/-- The `colors` dict: the 16 valid letters and their ANSI foreground
offsets; `none` models `color not in colors`. -/
def colors : Char → Option Nat
  | 'k' => some 30
  | 'K' => some 90
  | 'r' => some 31
  | 'R' => some 91
  | 'g' => some 32
  | 'G' => some 92
  | 'y' => some 33
  | 'Y' => some 93
  | 'b' => some 34
  | 'B' => some 94
  | 'm' => some 35
  | 'M' => some 95
  | 'c' => some 36
  | 'C' => some 96
  | 'w' => some 37
  | 'W' => some 97
  | _ => none

/-- The style character class `[*_\x60]`. -/
def isStyleChar (c : Char) : Bool :=
  c = '*' || c = '_' || c = backquote

/-- The color character class `[a-zA-Z]` (ASCII letters only, as in
Python's `re`). -/
def isAsciiAlpha (c : Char) : Bool :=
  ('a' ≤ c && c ≤ 'z') || ('A' ≤ c && c ≤ 'Z')

/-- The body group `((?:[^\x7d]|}})*)` followed by the closing `}`, applied to
the characters after the opening `{`.  Returns `some (body, rest)` where
`body` is the group-3 capture and `rest` the characters after the closing
brace, or `none` when the group cannot match (body never closed).  The greedy
star consumes a maximal run of non-`}` characters and `}}` pairs; on reaching
the end of input it backtracks to the last `}}` pair, whose first brace then
serves as the closer. -/
def bodyMatch : List Char → Option (List Char × List Char)
  | [] => none
  | c :: rest =>
    if c = '}' then
      match rest with
      | '}' :: rest' =>
        match bodyMatch rest' with
        | some (b, r) => some ('}' :: '}' :: b, r)
        | none => some ([], rest)
      | _ => some ([], rest)
    else
      match bodyMatch rest with
      | some (b, r) => some (c :: b, r)
      | none => none

/-- Match the optional style group at the front. -/
def splitStyle : List Char → Option Char × List Char
  | [] => (none, [])
  | c :: r => if isStyleChar c then (some c, r) else (none, c :: r)

/-- Match the optional color-letter group at the front. -/
def splitColor : List Char → Option Char × List Char
  | [] => (none, [])
  | c :: r => if isAsciiAlpha c then (some c, r) else (none, c :: r)

/-- Match the optional `{body}` group at the front; if the brace is never
closed the whole optional group matches empty. -/
def splitBody : List Char → Option (List Char) × List Char
  | [] => (none, [])
  | c :: r =>
    if c = '{' then
      match bodyMatch r with
      | some (b, rest) => (some b, rest)
      | none => (none, c :: r)
    else (none, c :: r)

/-- Parse the third `color_re` alternative (style? color? body?) from the
characters following the `@`. -/
def parseStyled (cs : List Char) : MarkupToken × List Char :=
  let s := splitStyle cs
  let co := splitColor s.2
  let bd := splitBody co.2
  (.styled s.1 co.1 bd.1, bd.2)

/-- Parse one `color_re` match from the characters following the `@`:
the alternation tries `@`, then `.`, then the optional-groups branch. -/
def parseTok : List Char → MarkupToken × List Char
  | '@' :: rest => (.lit, rest)
  | '.' :: rest => (.reset, rest)
  | cs => parseStyled cs

/-- `match_to_ansi.escape`: the CSI form `ESC[<attr>m` when color is enabled
(further wrapped as `\[...\]` when `extra_escape` is set), else `""`. -/
def escape (c e : Bool) (attr : List Char) : List Char :=
  if c then
    if e then
      '\\' :: '[' :: (escChar :: '[' :: attr ++ ['m']) ++ ['\\', ']']
    else
      escChar :: '[' :: attr ++ ['m']
  else []

/-- `colored_text`: empty unless the body group is present and non-empty
(Python's `if text:`), in which case the body is followed by the reset
escape. -/
def bodyPart (c e : Bool) : Option (List Char) → List Char
  | some t => if t = [] then [] else t ++ escape c e ['0']
  | none => []

/-- The attribute string a `styled` token resolves to: the style's code,
then `;` and the color's offset when a (valid) color letter is present. -/
def attrOf (st co : Option Char) : List Char :=
  match co with
  | some ch => styles st ++ ';' :: (toString ((colors ch).getD 0)).data
  | none => styles st

/-- `match_to_ansi.__call__`: translate one token. `input` is
`match.string`, used only in error messages. -/
def transTok (c e : Bool) (input : String) : MarkupToken → Except ColorParseError (List Char)
  | .lit => .ok ['@']
  | .reset => .ok (escape c e ['0'])
  | .styled st co bd =>
    if st = none ∧ co = none ∧ bd = none then
      .error (.incomplete "@" input)
    else
      match co with
      | some ch =>
        match colors ch with
        | none => .error (.invalidColor ch input)
        | some n => .ok (escape c e (styles st ++ ';' :: (toString n).data) ++ bodyPart c e bd)
      | none => .ok (escape c e (styles st) ++ bodyPart c e bd)

/-- The tokens on which `match_to_ansi.__call__` raises: a lone `@`
(`match.group(0) == "@"`, i.e. all three groups absent) or a color letter
outside the `colors` dict. -/
def badTok : MarkupToken → Bool
  | .styled st co bd =>
    match co with
    | some ch => (colors ch).isNone
    | none => st = none && bd = none
  | _ => false

/-- Fueled form of the `re.sub(color_re, match_to_ansi(...), string)` scan:
at an `@` replace the match by its translation (propagating the first
error), elsewhere copy the character. -/
def subScanF (c e : Bool) (input : String) : Nat → List Char → Except ColorParseError (List Char)
  | 0, l => .ok l
  | _ + 1, [] => .ok []
  | n + 1, ch :: t =>
    if ch = '@' then
      match transTok c e input (parseTok t).1 with
      | .error err => .error err
      | .ok s =>
        match subScanF c e input n (parseTok t).2 with
        | .error err => .error err
        | .ok rest => .ok (s ++ rest)
    else
      match subScanF c e input n t with
      | .error err => .error err
      | .ok rest => .ok (ch :: rest)

/-- The substitution pass of `colorize`. -/
def subScan (c e : Bool) (input : String) (l : List Char) : Except ColorParseError (List Char) :=
  subScanF c e input (l.length + 1) l

/-- Fueled tokenizer: the sequence of `color_re` matches in a string. -/
def tokensF : Nat → List Char → List MarkupToken
  | 0, _ => []
  | _ + 1, [] => []
  | n + 1, ch :: t =>
    if ch = '@' then (parseTok t).1 :: tokensF n (parseTok t).2
    else tokensF n t

/-- The sequence of `color_re` matches in a string. -/
def tokens (l : List Char) : List MarkupToken :=
  tokensF (l.length + 1) l

/-- Whether the first list is a prefix of the second. -/
def isPrefixL : List Char → List Char → Bool
  | [], _ => true
  | _ :: _, [] => false
  | a :: as, b :: bs => a = b && isPrefixL as bs

/-- Interleaving used by Python's `str.replace` with an empty pattern:
`interAll rep l` is `l` with `rep` inserted after every character. -/
def interAll (rep : List Char) : List Char → List Char
  | [] => []
  | c :: t => c :: (rep ++ interAll rep t)

/-- Fueled scan of Python's `str.replace` with non-empty pattern
`p :: ps`: leftmost non-overlapping occurrences are replaced by `rep`. -/
def replaceGoF (p : Char) (ps rep : List Char) : Nat → List Char → List Char
  | 0, l => l
  | _ + 1, [] => []
  | n + 1, c :: t =>
    if isPrefixL (p :: ps) (c :: t) then
      rep ++ replaceGoF p ps rep n (t.drop ps.length)
    else
      c :: replaceGoF p ps rep n t

/-- Python's `str.replace` with non-empty pattern `p :: ps`. -/
def replaceGo (p : Char) (ps rep : List Char) (l : List Char) : List Char :=
  replaceGoF p ps rep (l.length + 1) l

/-- Python's `str.replace(pat, rep)` on character lists; an empty pattern
inserts `rep` into every gap, `"ab".replace("", "X") == "XaXbX"`. -/
def pyReplace (l pat rep : List Char) : List Char :=
  match pat with
  | [] => rep ++ interAll rep l
  | p :: ps => replaceGo p ps rep l

/-- Collapsing of doubled braces, the specification's description of the
final `string.replace("}}", "}")` pass of `colorize`. -/
def collapseSpec : List Char → List Char
  | '}' :: '}' :: t => '}' :: collapseSpec t
  | c :: t => c :: collapseSpec t
  | [] => []

/-- The combined effect of `cescape`: every `@` and every `}` doubled. -/
def escaped : List Char → List Char
  | [] => []
  | c :: t =>
    if c = '@' then '@' :: '@' :: escaped t
    else if c = '}' then '}' :: '}' :: escaped t
    else c :: escaped t

/-- Only the braces doubled: the state of `colorize (cescape s)` after the
substitution pass has restored each `@@` to `@`. -/
def braceDoubled : List Char → List Char
  | [] => []
  | c :: t => if c = '}' then '}' :: '}' :: braceDoubled t else c :: braceDoubled t

/-- `colorize(string, color=..., extra_escape=...)`: substitute every
`color_re` match, then collapse every remaining `}}` to `}`.  The policy
facade is out of scope: `color` is the already-resolved boolean. -/
def colorize (string : String) (color : Bool) (extra_escape : Bool) :
    Except ColorParseError String :=
  match subScan color extra_escape string string.data with
  | .error err => .error err
  | .ok l => .ok (String.mk (pyReplace l ['}', '}'] ['}']))

/-- `cescape`: double every `@` and every `}`. -/
def cescape (string : String) : String :=
  String.mk (pyReplace (pyReplace string.data ['@'] ['@', '@']) ['}'] ['}', '}'])

mutual

/-- Scanner for the regex `"\x1b[^m]*m"` used by `clen`/`cstrip`/`cextra`:
outside an escape sequence, an ESC switches into `csEsc`. -/
def csNorm : List Char → List Char
  | [] => []
  | c :: t => if c = escChar then csEsc [c] t else c :: csNorm t

/-- Inside a candidate escape sequence, `buf` holds the (reversed) buffered
characters; a later `m` discards the buffer (the sequence is stripped),
while end of input flushes it (an ESC with no following `m` is ordinary
text). -/
def csEsc (buf : List Char) : List Char → List Char
  | [] => buf.reverse
  | c :: t => if c = 'm' then csNorm t else csEsc (c :: buf) t

end

mutual

/-- Character count of the removed sequences, mirroring
`len("".join(re.findall(r"\x1b[^m]*m", string)))`. -/
def ceNorm : List Char → Nat
  | [] => 0
  | c :: t => if c = escChar then ceEsc 1 t else ceNorm t

/-- Count inside a candidate escape sequence; `k` is the number of
characters buffered so far (including the opening ESC). -/
def ceEsc (k : Nat) : List Char → Nat
  | [] => 0
  | c :: t => if c = 'm' then k + 1 + ceNorm t else ceEsc (k + 1) t

end

/-- `clen`: length with all `"\x1b[^m]*m"` matches removed. -/
def clen (string : String) : Nat :=
  (csNorm string.data).length

/-- `cstrip`: the string with all `"\x1b[^m]*m"` matches removed. -/
def cstrip (string : String) : String :=
  String.mk (csNorm string.data)

/-- `cextra`: total length of all `"\x1b[^m]*m"` matches. -/
def cextra (string : String) : Nat :=
  ceNorm string.data

/-- Every ESC in the list is followed (somewhere later in the list) by an
`m`, i.e. every candidate escape sequence is terminated within the list. -/
def escClosedB : List Char → Bool
  | [] => true
  | c :: t => (c ≠ escChar || decide ('m' ∈ t)) && escClosedB t

/-- CPython's `str.center`: for `width ≤ len` the string itself, otherwise
`marg = width - len` fill characters split as
`left = marg // 2 + (marg & width & 1)`. -/
def pyCenter (l : List Char) (width : Nat) (fill : Char) : List Char :=
  if width ≤ l.length then l
  else
    let marg := width - l.length
    let left := marg / 2 + (marg &&& width &&& 1)
    List.replicate left fill ++ l ++ List.replicate (marg - left) fill

/-- `ccenter(string, width, fillchar)`: center a same-visible-length run of
`*` and substitute the real string back in. -/
def ccenter (string : String) (width : Nat) (fillchar : Char) : String :=
  let fillin := List.replicate (clen string) '*'
  String.mk (pyReplace (pyCenter fillin width fillchar) fillin string.data)

end Canary

namespace Canary

/-! ### Length facts about the tokenizer, and fuel elimination -/

theorem bodyMatch_length : ∀ cs b r, bodyMatch cs = some (b, r) → r.length < cs.length := by
  intro cs
  induction cs using bodyMatch.induct with
  | case1 => intro b r h; simp [bodyMatch] at h
  | case2 rest' b2 r2 hbm ih =>
    intro b r h
    simp [bodyMatch, hbm] at h
    obtain ⟨hb, hr⟩ := h
    subst hr
    have := ih b2 r2 hbm
    simp only [List.length_cons]
    omega
  | case3 rest' hbm ih =>
    intro b r h
    simp [bodyMatch, hbm] at h
    obtain ⟨hb, hr⟩ := h
    subst hr
    simp only [List.length_cons]
    omega
  | case4 rest hne =>
    intro b r h
    cases rest with
    | nil =>
      simp [bodyMatch] at h
      obtain ⟨hb, hr⟩ := h
      subst hr
      simp
    | cons c2 t =>
      have hc2 : c2 ≠ '}' := fun hh => hne t (by rw [hh])
      simp [bodyMatch, hc2] at h
      obtain ⟨hb, hr⟩ := h
      subst hr
      simp only [List.length_cons]
      omega
  | case5 c rest hc b2 r2 hbm ih =>
    intro b r h
    rw [bodyMatch.eq_def] at h
    simp [hc, hbm] at h
    obtain ⟨hb, hr⟩ := h
    subst hr
    have := ih b2 r2 hbm
    simp only [List.length_cons]
    omega
  | case6 c rest hc hbm ih =>
    intro b r h
    rw [bodyMatch.eq_def] at h
    simp [hc, hbm] at h

theorem splitStyle_length (cs : List Char) : (splitStyle cs).2.length ≤ cs.length := by
  cases cs with
  | nil => simp [splitStyle]
  | cons c r =>
    simp only [splitStyle]
    split <;> simp

theorem splitColor_length (cs : List Char) : (splitColor cs).2.length ≤ cs.length := by
  cases cs with
  | nil => simp [splitColor]
  | cons c r =>
    simp only [splitColor]
    split <;> simp

theorem splitBody_length (cs : List Char) : (splitBody cs).2.length ≤ cs.length := by
  cases cs with
  | nil => simp [splitBody]
  | cons c r =>
    by_cases hc : c = '{'
    · subst hc
      cases hbm : bodyMatch r with
      | some pr =>
        obtain ⟨b, rest⟩ := pr
        have hlen := bodyMatch_length r b rest hbm
        simp [splitBody, hbm]
        omega
      | none => simp [splitBody, hbm]
    · simp [splitBody, hc]

theorem parseStyled_length (cs : List Char) : (parseStyled cs).2.length ≤ cs.length := by
  simp only [parseStyled]
  exact le_trans (splitBody_length _) (le_trans (splitColor_length _) (splitStyle_length cs))

theorem parseTok_length (cs : List Char) : (parseTok cs).2.length ≤ cs.length := by
  cases cs with
  | nil => exact parseStyled_length []
  | cons c rest =>
    by_cases h1 : c = '@'
    · subst h1; simp [parseTok]
    · by_cases h2 : c = '.'
      · subst h2; simp [parseTok]
      · have : parseTok (c :: rest) = parseStyled (c :: rest) := by
          rw [parseTok.eq_def]
          simp [h1, h2]
        rw [this]
        exact parseStyled_length _

theorem subScanF_mono (c e : Bool) (input : String) :
    ∀ n m l, l.length < n → l.length < m →
      subScanF c e input n l = subScanF c e input m l := by
  intro n
  induction n with
  | zero => intro m l hn; omega
  | succ n ih =>
    intro m l hn hm
    cases m with
    | zero => omega
    | succ m =>
      cases l with
      | nil => simp [subScanF]
      | cons ch t =>
        simp only [List.length_cons] at hn hm
        simp only [subScanF]
        by_cases hch : ch = '@'
        · subst hch
          simp only [eq_self_iff_true, if_true]
          have hr : (parseTok t).2.length < n := lt_of_le_of_lt (parseTok_length t) (by omega)
          have hr' : (parseTok t).2.length < m := lt_of_le_of_lt (parseTok_length t) (by omega)
          rw [ih m (parseTok t).2 hr hr']
        · simp only [if_neg hch]
          rw [ih m t (by omega) (by omega)]

theorem subScan_nil (c e : Bool) (input : String) : subScan c e input [] = .ok [] := rfl

theorem subScan_cons (c e : Bool) (input : String) (ch : Char) (t : List Char) (h : ch ≠ '@') :
    subScan c e input (ch :: t) =
      match subScan c e input t with
      | .error err => .error err
      | .ok rest => .ok (ch :: rest) := by
  simp only [subScan, List.length_cons, subScanF, if_neg h]

theorem subScan_at (c e : Bool) (input : String) (t : List Char) :
    subScan c e input ('@' :: t) =
      match transTok c e input (parseTok t).1 with
      | .error err => .error err
      | .ok s =>
        match subScan c e input (parseTok t).2 with
        | .error err => .error err
        | .ok rest => .ok (s ++ rest) := by
  simp only [subScan, List.length_cons, subScanF, eq_self_iff_true, if_true]
  rw [subScanF_mono c e input (t.length + 1) ((parseTok t).2.length + 1) (parseTok t).2
    (lt_of_le_of_lt (parseTok_length t) (by omega)) (by omega)]

theorem tokensF_mono :
    ∀ n m l, l.length < n → l.length < m → tokensF n l = tokensF m l := by
  intro n
  induction n with
  | zero => intro m l hn; omega
  | succ n ih =>
    intro m l hn hm
    cases m with
    | zero => omega
    | succ m =>
      cases l with
      | nil => simp [tokensF]
      | cons ch t =>
        simp only [List.length_cons] at hn hm
        simp only [tokensF]
        by_cases hch : ch = '@'
        · subst hch
          simp only [eq_self_iff_true, if_true]
          have hr : (parseTok t).2.length < n := lt_of_le_of_lt (parseTok_length t) (by omega)
          have hr' : (parseTok t).2.length < m := lt_of_le_of_lt (parseTok_length t) (by omega)
          rw [ih m (parseTok t).2 hr hr']
        · simp only [if_neg hch]
          rw [ih m t (by omega) (by omega)]

theorem tokens_nil : tokens [] = [] := rfl

theorem tokens_cons (ch : Char) (t : List Char) (h : ch ≠ '@') :
    tokens (ch :: t) = tokens t := by
  simp only [tokens, List.length_cons, tokensF, if_neg h]

theorem tokens_at (t : List Char) :
    tokens ('@' :: t) = (parseTok t).1 :: tokens (parseTok t).2 := by
  simp only [tokens, List.length_cons, tokensF, eq_self_iff_true, if_true]
  rw [tokensF_mono (t.length + 1) ((parseTok t).2.length + 1) (parseTok t).2
    (lt_of_le_of_lt (parseTok_length t) (by omega)) (by omega)]

theorem replaceGoF_mono (p : Char) (ps rep : List Char) :
    ∀ n m l, l.length < n → l.length < m →
      replaceGoF p ps rep n l = replaceGoF p ps rep m l := by
  intro n
  induction n with
  | zero => intro m l hn; omega
  | succ n ih =>
    intro m l hn hm
    cases m with
    | zero => omega
    | succ m =>
      cases l with
      | nil => simp [replaceGoF]
      | cons ch t =>
        simp only [List.length_cons] at hn hm
        simp only [replaceGoF]
        by_cases hp : isPrefixL (p :: ps) (ch :: t) = true
        · simp only [if_pos hp]
          have hd : (t.drop ps.length).length ≤ t.length := by
            simp [List.length_drop]
          rw [ih m (t.drop ps.length) (by omega) (by omega)]
        · simp only [if_neg hp]
          rw [ih m t (by omega) (by omega)]

theorem replaceGo_nil (p : Char) (ps rep : List Char) : replaceGo p ps rep [] = [] := rfl

theorem replaceGo_cons_pos (p : Char) (ps rep : List Char) (c : Char) (t : List Char)
    (h : isPrefixL (p :: ps) (c :: t) = true) :
    replaceGo p ps rep (c :: t) = rep ++ replaceGo p ps rep (t.drop ps.length) := by
  simp only [replaceGo, List.length_cons, replaceGoF, if_pos h]
  rw [replaceGoF_mono p ps rep (t.length + 1) ((t.drop ps.length).length + 1) (t.drop ps.length)
    (by simp [List.length_drop]; omega) (by omega)]

theorem replaceGo_cons_neg (p : Char) (ps rep : List Char) (c : Char) (t : List Char)
    (h : ¬ isPrefixL (p :: ps) (c :: t) = true) :
    replaceGo p ps rep (c :: t) = c :: replaceGo p ps rep t := by
  simp only [replaceGo, List.length_cons, replaceGoF, if_neg h]

/-! ### Which tokens make the translator raise -/

theorem transTok_error_iff (c e : Bool) (input : String) (tok : MarkupToken) :
    (∃ err, transTok c e input tok = .error err) ↔ badTok tok = true := by
  cases tok with
  | lit => simp [transTok, badTok]
  | reset => simp [transTok, badTok]
  | styled st co bd =>
    by_cases hall : st = none ∧ co = none ∧ bd = none
    · obtain ⟨rfl, rfl, rfl⟩ := hall
      simp [transTok, badTok]
    · rw [transTok.eq_def]
      simp only [if_neg hall]
      cases co with
      | some ch =>
        cases hco : colors ch with
        | none => simp [badTok, hco]
        | some n => simp [badTok, hco]
      | none =>
        simp only [badTok]
        constructor
        · rintro ⟨err, h⟩
          exact absurd h (by simp)
        · intro h
          simp at h
          exact absurd (And.intro h.1 (And.intro rfl h.2)) hall

theorem transTok_error_shape (c e : Bool) (input : String) (tok : MarkupToken)
    (err : ColorParseError) (h : transTok c e input tok = .error err) :
    err = ColorParseError.incomplete "@" input ∨
      ∃ ch, colors ch = none ∧ err = ColorParseError.invalidColor ch input := by
  cases tok with
  | lit => simp [transTok] at h
  | reset => simp [transTok] at h
  | styled st co bd =>
    rw [transTok.eq_def] at h
    by_cases hall : st = none ∧ co = none ∧ bd = none
    · simp only [if_pos hall] at h
      cases h
      exact Or.inl rfl
    · simp only [if_neg hall] at h
      cases co with
      | some ch =>
        cases hco : colors ch with
        | none =>
          simp [hco] at h
          cases h
          exact Or.inr ⟨ch, hco, rfl⟩
        | some n => simp [hco] at h
      | none => simp at h

/-! ### The failure characterization of the scan -/

theorem subScan_error_iff (c e : Bool) (input : String) :
    ∀ n l, l.length ≤ n →
      ((∃ err, subScan c e input l = .error err) ↔ ∃ t ∈ tokens l, badTok t = true) := by
  intro n
  induction n with
  | zero =>
    intro l hl
    have : l = [] := by cases l with | nil => rfl | cons a b => simp at hl
    subst this
    simp [subScan_nil, tokens_nil]
  | succ n ih =>
    intro l hl
    cases l with
    | nil => simp [subScan_nil, tokens_nil]
    | cons ch t =>
      simp only [List.length_cons] at hl
      by_cases hch : ch = '@'
      · subst hch
        rw [subScan_at, tokens_at]
        have hrec := ih (parseTok t).2 (le_trans (parseTok_length t) (by omega))
        cases htr : transTok c e input (parseTok t).1 with
        | error err =>
          constructor
          · intro _
            exact ⟨(parseTok t).1, by simp,
              (transTok_error_iff c e input (parseTok t).1).mp ⟨err, htr⟩⟩
          · intro _
            exact ⟨err, rfl⟩
        | ok s =>
          have hnb : ¬ badTok (parseTok t).1 = true := by
            intro hb
            obtain ⟨err, herr⟩ := (transTok_error_iff c e input (parseTok t).1).mpr hb
            rw [htr] at herr
            exact Except.noConfusion herr
          cases hrc : subScan c e input (parseTok t).2 with
          | error err2 =>
            constructor
            · intro _
              obtain ⟨t2, ht2, hbad⟩ := hrec.mp ⟨err2, hrc⟩
              exact ⟨t2, List.mem_cons_of_mem _ ht2, hbad⟩
            · intro _
              exact ⟨err2, rfl⟩
          | ok rest =>
            constructor
            · rintro ⟨err, herr⟩
              exact absurd herr (by simp)
            · rintro ⟨t2, ht2, hbad⟩
              rcases List.mem_cons.mp ht2 with rfl | ht2'
              · exact absurd hbad hnb
              · obtain ⟨err, herr⟩ := hrec.mpr ⟨t2, ht2', hbad⟩
                rw [hrc] at herr
                exact Except.noConfusion herr
      · rw [subScan_cons c e input ch t hch, tokens_cons ch t hch]
        have hrec := ih t (by omega)
        cases hrc : subScan c e input t with
        | error err2 =>
          constructor
          · intro _
            exact hrec.mp ⟨err2, hrc⟩
          · intro _
            exact ⟨err2, rfl⟩
        | ok rest =>
          constructor
          · rintro ⟨err, herr⟩
            exact absurd herr (by simp)
          · intro hbad
            obtain ⟨err, herr⟩ := hrec.mpr hbad
            rw [hrc] at herr
            exact Except.noConfusion herr

theorem subScan_error_shape (c e : Bool) (input : String) :
    ∀ n l, l.length ≤ n → ∀ err, subScan c e input l = .error err →
      err = ColorParseError.incomplete "@" input ∨
        ∃ ch, colors ch = none ∧ err = ColorParseError.invalidColor ch input := by
  intro n
  induction n with
  | zero =>
    intro l hl err h
    have : l = [] := by cases l with | nil => rfl | cons a b => simp at hl
    subst this
    rw [subScan_nil] at h
    exact Except.noConfusion h
  | succ n ih =>
    intro l hl err h
    cases l with
    | nil =>
      rw [subScan_nil] at h
      exact Except.noConfusion h
    | cons ch t =>
      simp only [List.length_cons] at hl
      by_cases hch : ch = '@'
      · subst hch
        rw [subScan_at] at h
        cases htr : transTok c e input (parseTok t).1 with
        | error err1 =>
          rw [htr] at h
          cases h
          exact transTok_error_shape c e input (parseTok t).1 err htr
        | ok s =>
          rw [htr] at h
          cases hrc : subScan c e input (parseTok t).2 with
          | error err2 =>
            rw [hrc] at h
            cases h
            exact ih (parseTok t).2 (le_trans (parseTok_length t) (by omega)) err hrc
          | ok rest =>
            rw [hrc] at h
            exact Except.noConfusion h
      · rw [subScan_cons c e input ch t hch] at h
        cases hrc : subScan c e input t with
        | error err2 =>
          rw [hrc] at h
          cases h
          exact ih t (by omega) err hrc
        | ok rest =>
          rw [hrc] at h
          exact Except.noConfusion h

theorem colorize_error_iff_subScan (s : String) (c e : Bool) :
    ∀ err, colorize s c e = .error err ↔ subScan c e s s.data = .error err := by
  intro err
  unfold colorize
  cases h : subScan c e s s.data with
  | error err2 => simp
  | ok l => simp

/-- C1: `colorize(s, colorEnabled, extraEscape)` fails if and only if `s`
contains a lone unterminated `@` token or a color letter outside the 16
valid letters; every failure is a `ColorParseError` carrying the offending
fragment (always `"@"`) resp. the offending letter together with the full
input, and a failing call is atomic: the `Except.error` result carries no
transformed output. -/
theorem colorize_error_characterization (s : String) (c e : Bool) :
    ((∃ err, colorize s c e = .error err) ↔ ∃ t ∈ tokens s.data, badTok t = true)
    ∧ (∀ err, colorize s c e = .error err →
        err = ColorParseError.incomplete "@" s ∨
          ∃ ch, colors ch = none ∧ err = ColorParseError.invalidColor ch s) := by
  constructor
  · constructor
    · rintro ⟨err, herr⟩
      exact (subScan_error_iff c e s s.data.length s.data le_rfl).mp
        ⟨err, (colorize_error_iff_subScan s c e err).mp herr⟩
    · intro hbad
      obtain ⟨err, herr⟩ := (subScan_error_iff c e s s.data.length s.data le_rfl).mpr hbad
      exact ⟨err, (colorize_error_iff_subScan s c e err).mpr herr⟩
  · intro err herr
    exact subScan_error_shape c e s s.data.length s.data le_rfl err
      ((colorize_error_iff_subScan s c e err).mp herr)

theorem colorize_error_characterization_witness :
    (∃ err, colorize "@" true false = .error err)
    ∧ (ColorParseError.incomplete "@" "@" = ColorParseError.incomplete "@" "@" ∨
        ∃ ch, colors ch = none ∧
          ColorParseError.incomplete "@" "@" = ColorParseError.invalidColor ch "@") := by
  constructor
  · exact (colorize_error_characterization "@" true false).1.mpr
      ⟨MarkupToken.styled none none none, by decide, by decide⟩
  · exact (colorize_error_characterization "@" true false).2
      (ColorParseError.incomplete "@" "@") (by decide)

/-- C4: the concrete translations of `@*b{hi}` (style code before color
offset, joined by `;`), and the two lookup tables. -/
theorem colorize_bold_blue_and_tables :
    colorize "@*b{hi}" true false = .ok "\x1b[1;34mhi\x1b[0m"
    ∧ colorize "@*b{hi}" false false = .ok "hi"
    ∧ colorize "@*b{hi}" false true = .ok "hi"
    ∧ styles (some '*') = ['1'] ∧ styles (some '_') = ['4']
    ∧ styles (some backquote) = ['3'] ∧ styles none = ['0']
    ∧ colors 'k' = some 30 ∧ colors 'r' = some 31 ∧ colors 'g' = some 32
    ∧ colors 'y' = some 33 ∧ colors 'b' = some 34 ∧ colors 'm' = some 35
    ∧ colors 'c' = some 36 ∧ colors 'w' = some 37
    ∧ colors 'K' = some 90 ∧ colors 'R' = some 91 ∧ colors 'G' = some 92
    ∧ colors 'Y' = some 93 ∧ colors 'B' = some 94 ∧ colors 'M' = some 95
    ∧ colors 'C' = some 96 ∧ colors 'W' = some 97 := by
  decide

/-! ### Unclosed bodies fall back to a bare-`@` match -/

theorem parseTok_lbrace (tail : List Char) (h : bodyMatch tail = none) :
    parseTok ('{' :: tail) = (.styled none none none, '{' :: tail) := by
  rw [parseTok.eq_def]
  simp [parseStyled, splitStyle, splitColor, splitBody, isStyleChar, isAsciiAlpha, h, backquote]

theorem subScan_append_incomplete (c e : Bool) (input : String) (tail : List Char)
    (htail : bodyMatch tail = none) :
    ∀ pre, '@' ∉ pre →
      subScan c e input (pre ++ '@' :: '{' :: tail) =
        .error (ColorParseError.incomplete "@" input) := by
  intro pre
  induction pre with
  | nil =>
    intro _
    rw [List.nil_append, subScan_at, parseTok_lbrace tail htail]
    simp [transTok]
  | cons c0 pre' ih =>
    intro hpre
    simp only [List.mem_cons, not_or] at hpre
    have hc0 : c0 ≠ '@' := fun hh => hpre.1 hh.symm
    rw [List.cons_append, subScan_cons c e input c0 _ hc0, ih hpre.2]

/-- C10 counterexample: an input containing `@` immediately followed by `{`
with an unclosed body can raise the invalid-color error instead of the
incomplete-format one, when an earlier token errors first. -/
theorem unclosed_body_after_invalid_color :
    colorize "@x@\x7ba" true false = .error (ColorParseError.invalidColor 'x' "@x@\x7ba")
    ∧ (ColorParseError.invalidColor 'x' "@x@\x7ba").isIncomplete = false := by
  decide

/-- C10 (amended): for input made of `@`-free text followed by `@{` with a
body never closed by a matching `}`, `colorize` raises the
incomplete-format `ColorParseError` (the unclosed `{...}` falls back to a
bare-`@` match) rather than passing the text through; in particular on
`"@\x7babc"`. -/
theorem colorize_unclosed_body_incomplete (c e : Bool) (pre tail : List Char)
    (hpre : '@' ∉ pre) (htail : bodyMatch tail = none) :
    colorize (String.mk (pre ++ '@' :: '{' :: tail)) c e =
      .error (ColorParseError.incomplete "@" (String.mk (pre ++ '@' :: '{' :: tail)))
    ∧ colorize "@\x7babc" c e = .error (ColorParseError.incomplete "@" "@\x7babc") := by
  constructor
  · unfold colorize
    rw [show (String.mk (pre ++ '@' :: '{' :: tail)).data = pre ++ '@' :: '{' :: tail from rfl]
    rw [subScan_append_incomplete c e _ tail htail pre hpre]
  · cases c <;> cases e <;> decide

theorem colorize_unclosed_body_incomplete_witness :
    colorize (String.mk ('a' :: 'b' :: '@' :: '{' :: ['c', 'd'])) true false =
      .error (ColorParseError.incomplete "@" (String.mk ('a' :: 'b' :: '@' :: '{' :: ['c', 'd'])))
    ∧ colorize "@\x7babc" true false = .error (ColorParseError.incomplete "@" "@\x7babc") :=
  colorize_unclosed_body_incomplete true false ['a', 'b'] ['c', 'd'] (by decide) (by decide)

/-! ### Styled-run translation with a body -/

/-- C2 counterexample: with an empty `{}` body the translation is only the
start escape, with no trailing reset, because Python's `if text:` is false
for the empty string. -/
theorem styled_empty_body_no_reset :
    colorize "@b\x7b\x7d" true false = .ok "\x1b[0;34m"
    ∧ ("\x1b[0;34m" : String) ≠ "\x1b[0;34m" ++ "\x1b[0m" := by
  decide

/-- C2 (amended): for every `StyledRun` token whose `{...}` body is present
and non-empty, with color enabled, the translation is the start escape,
then the body, then immediately the plain/reset escape (so color never
leaks past the block); an empty `{}` body yields only the start escape. -/
theorem styled_nonempty_body_reset (e : Bool) (input : String) (st co : Option Char)
    (b : List Char) (hb : b ≠ [])
    (hco : co = none ∨ ∃ ch n, co = some ch ∧ colors ch = some n) :
    transTok true e input (.styled st co (some b)) =
      .ok (escape true e (attrOf st co) ++ (b ++ escape true e ['0'])) := by
  rcases hco with rfl | ⟨ch, n, rfl, hcn⟩
  · rw [transTok.eq_def]
    have hne : ¬(st = none ∧ (none : Option Char) = none ∧
        (some b : Option (List Char)) = none) := by simp
    simp [if_neg hne, bodyPart, hb, attrOf]
  · rw [transTok.eq_def]
    have hne : ¬(st = none ∧ (some ch : Option Char) = none ∧
        (some b : Option (List Char)) = none) := by simp
    simp [if_neg hne, hcn, bodyPart, hb, attrOf]

theorem styled_nonempty_body_reset_witness :
    transTok true false "@*b{hi}" (.styled (some '*') (some 'b') (some ['h', 'i'])) =
      .ok (escape true false (attrOf (some '*') (some 'b')) ++
        (['h', 'i'] ++ escape true false ['0'])) :=
  styled_nonempty_body_reset false "@*b{hi}" (some '*') (some 'b') ['h', 'i']
    (by decide) (Or.inr ⟨'b', 34, rfl, rfl⟩)

/-! ### The measurement scan -/

theorem cs_length : ∀ l : List Char,
    ((csNorm l).length + ceNorm l = l.length)
    ∧ (∀ buf, (csEsc buf l).length + ceEsc buf.length l = buf.length + l.length) := by
  intro l
  induction l with
  | nil =>
    constructor
    · simp [csNorm, ceNorm]
    · intro buf; simp [csEsc, ceEsc]
  | cons c t ih =>
    constructor
    · by_cases hc : c = escChar
      · subst hc
        simp only [csNorm, ceNorm, eq_self_iff_true, if_true]
        have h2 := ih.2 [escChar]
        simp only [List.length_singleton] at h2
        simp only [List.length_cons]
        omega
      · simp only [csNorm, ceNorm, if_neg hc]
        have h1 := ih.1
        simp only [List.length_cons]
        omega
    · intro buf
      by_cases hc : c = 'm'
      · subst hc
        simp only [csEsc, ceEsc, eq_self_iff_true, if_true]
        have h1 := ih.1
        simp only [List.length_cons]
        omega
      · simp only [csEsc, ceEsc, if_neg hc]
        have h2 := ih.2 (c :: buf)
        simp only [List.length_cons] at h2
        simp only [List.length_cons]
        omega

/-- C6: the visible length plus the stripped length is the full length, and
`clen` agrees with the length of `cstrip`. -/
theorem clen_cextra_roundtrip (s : String) :
    clen s + cextra s = s.length ∧ clen s = (cstrip s).length := by
  exact ⟨(cs_length s.data).1, rfl⟩

theorem csEsc_skip : ∀ mid, 'm' ∉ mid → ∀ buf rest,
    csEsc buf (mid ++ 'm' :: rest) = csNorm rest := by
  intro mid
  induction mid with
  | nil =>
    intro _ buf rest
    simp [csEsc]
  | cons c t ihm =>
    intro h buf rest
    simp only [List.mem_cons, not_or] at h
    have hc : ¬ c = 'm' := fun hh => h.1 hh.symm
    simp only [List.cons_append, csEsc, if_neg hc]
    exact ihm h.2 (c :: buf) rest

theorem csNorm_cons_ne (c : Char) (t : List Char) (h : ¬ c = escChar) :
    csNorm (c :: t) = c :: csNorm t := by
  simp only [csNorm, if_neg h]

theorem csNorm_esc_skip (mid rest : List Char) (h : 'm' ∉ mid) :
    csNorm (escChar :: (mid ++ 'm' :: rest)) = csNorm rest := by
  simp only [csNorm, eq_self_iff_true, if_true]
  exact csEsc_skip mid h [escChar] rest

theorem csNorm_no_esc : ∀ l, escChar ∉ l → csNorm l = l := by
  intro l
  induction l with
  | nil => simp [csNorm]
  | cons c t ih =>
    intro h
    simp only [List.mem_cons, not_or] at h
    have hc : ¬ c = escChar := fun hh => h.1 hh.symm
    simp only [csNorm, if_neg hc]
    rw [ih h.2]

/-- C5 counterexample: under `extra_escape` the produced escape is wrapped in
literal `\[` and `\]`, and `cstrip`/`clen` do not remove that wrapper: the
whole wrapped escape is not matched, leaving visible text `\[\]`. -/
theorem cstrip_wrapped_escape_not_removed :
    colorize "@." true true = .ok "\\[\x1b[0m\\]"
    ∧ cstrip "\\[\x1b[0m\\]" = "\\[\\]"
    ∧ ("\\[\\]" : String) ≠ ""
    ∧ clen "\\[\x1b[0m\\]" = 4 := by
  decide

/-- C5 (amended): `clen` and `cstrip` remove exactly the sequences of the
form ESC, then any run of non-`m` characters, then `m` — every CSI color sequence is
such a sequence, but so is any other ESC-to-`m` run; ESC-free text is
untouched; and the shell-bracket wrapper characters `\[` `\]` produced
under `extra_escape` are not part of the match, so stripping a wrapped
escape leaves the literal brackets. -/
theorem cstrip_removes_esc_through_m :
    (∀ mid rest : List Char, 'm' ∉ mid →
        csNorm (escChar :: (mid ++ 'm' :: rest)) = csNorm rest)
    ∧ (∀ l : List Char, escChar ∉ l → csNorm l = l)
    ∧ (∀ mid rest : List Char, 'm' ∉ mid →
        csNorm ('\\' :: '[' :: escChar :: (mid ++ 'm' :: '\\' :: ']' :: rest)) =
          '\\' :: '[' :: '\\' :: ']' :: csNorm rest)
    ∧ (∀ s : String, cstrip s = String.mk (csNorm s.data) ∧ clen s = (csNorm s.data).length) := by
  refine ⟨csNorm_esc_skip, csNorm_no_esc, ?_, fun s => ⟨rfl, rfl⟩⟩
  intro mid rest h
  have h1 : ¬ ('\\' : Char) = escChar := by decide
  have h2 : ¬ ('[' : Char) = escChar := by decide
  have h3 : ¬ (']' : Char) = escChar := by decide
  rw [csNorm_cons_ne _ _ h1, csNorm_cons_ne _ _ h2,
    csNorm_esc_skip mid ('\\' :: ']' :: rest) h,
    csNorm_cons_ne _ _ h1, csNorm_cons_ne _ _ h3]

theorem cstrip_removes_esc_through_m_witness :
    csNorm (escChar :: (['[', '0'] ++ 'm' :: ['a'])) = csNorm ['a']
    ∧ csNorm ['a', 'b'] = ['a', 'b']
    ∧ csNorm ('\\' :: '[' :: escChar :: (['[', '0'] ++ 'm' :: '\\' :: ']' :: ['x'])) =
        '\\' :: '[' :: '\\' :: ']' :: csNorm ['x'] :=
  ⟨cstrip_removes_esc_through_m.1 ['[', '0'] ['a'] (by decide),
   cstrip_removes_esc_through_m.2.1 ['a', 'b'] (by decide),
   cstrip_removes_esc_through_m.2.2.1 ['[', '0'] ['x'] (by decide)⟩

/-! ### Doubled-escape resolution -/

theorem isPrefixL_head_ne (p : Char) (ps : List Char) (c : Char) (t : List Char)
    (h : ¬ p = c) : ¬ isPrefixL (p :: ps) (c :: t) = true := by
  simp only [isPrefixL, Bool.and_eq_true, decide_eq_true_eq]
  intro hcontra
  exact h hcontra.1

theorem colorize_ok_eq (s : String) (c e : Bool) (l : List Char)
    (h : subScan c e s s.data = .ok l) :
    colorize s c e = .ok (String.mk (pyReplace l ['}', '}'] ['}'])) := by
  unfold colorize
  rw [h]

theorem replace_escape : ∀ l, pyReplace (pyReplace l ['@'] ['@', '@']) ['}'] ['}', '}'] = escaped l := by
  intro l
  induction l using escaped.induct with
  | case1 => rfl
  | case2 rest ih =>
    simp only [pyReplace] at ih ⊢
    rw [replaceGo_cons_pos '@' [] ['@', '@'] '@' rest (by simp [isPrefixL])]
    simp only [List.length_nil, List.drop_zero, List.cons_append, List.nil_append]
    rw [replaceGo_cons_neg '}' [] ['}', '}'] '@' _ (isPrefixL_head_ne _ _ _ _ (by decide)),
      replaceGo_cons_neg '}' [] ['}', '}'] '@' _ (isPrefixL_head_ne _ _ _ _ (by decide)), ih]
    simp [escaped]
  | case3 rest hne ih =>
    simp only [pyReplace] at ih ⊢
    rw [replaceGo_cons_neg '@' [] ['@', '@'] '}' rest (isPrefixL_head_ne _ _ _ _ (by decide)),
      replaceGo_cons_pos '}' [] ['}', '}'] '}' _ (by simp [isPrefixL])]
    simp only [List.length_nil, List.drop_zero, List.cons_append, List.nil_append]
    rw [ih]
    simp [escaped]
  | case4 c rest hc1 hc2 ih =>
    simp only [pyReplace] at ih ⊢
    rw [replaceGo_cons_neg '@' [] ['@', '@'] c rest
        (isPrefixL_head_ne _ _ _ _ (fun hh => hc1 hh.symm)),
      replaceGo_cons_neg '}' [] ['}', '}'] c _
        (isPrefixL_head_ne _ _ _ _ (fun hh => hc2 hh.symm)), ih]
    simp [escaped, hc1, hc2]

theorem cescape_data (s : String) : (cescape s).data = escaped s.data := by
  unfold cescape
  rw [replace_escape]

theorem subScan_escaped (e : Bool) (input : String) :
    ∀ l, subScan false e input (escaped l) = .ok (braceDoubled l) := by
  intro l
  induction l using escaped.induct with
  | case1 => simp [escaped, braceDoubled, subScan_nil]
  | case2 rest ih =>
    have he : escaped ('@' :: rest) = '@' :: '@' :: escaped rest := by simp [escaped]
    rw [he, subScan_at]
    have hp : parseTok ('@' :: escaped rest) = (.lit, escaped rest) := rfl
    rw [hp]
    simp only [transTok]
    rw [ih]
    simp [braceDoubled]
  | case3 rest hne ih =>
    have he : escaped ('}' :: rest) = '}' :: '}' :: escaped rest := by simp [escaped]
    rw [he, subScan_cons _ _ _ _ _ (by decide), subScan_cons _ _ _ _ _ (by decide), ih]
    simp [braceDoubled]
  | case4 c rest hc1 hc2 ih =>
    have he : escaped (c :: rest) = c :: escaped rest := by simp [escaped, hc1, hc2]
    rw [he, subScan_cons _ _ _ _ _ hc1, ih]
    simp [braceDoubled, hc2]

theorem collapseSpec_pair (t : List Char) :
    collapseSpec ('}' :: '}' :: t) = '}' :: collapseSpec t := by
  conv_lhs => rw [collapseSpec.eq_def]
  rfl

theorem collapseSpec_ne (c : Char) (t : List Char) (hc : ¬ c = '}') :
    collapseSpec (c :: t) = c :: collapseSpec t := by
  cases t with
  | nil =>
    rw [collapseSpec.eq_def]
    simp [hc]
  | cons c2 t2 =>
    rw [collapseSpec.eq_def]
    simp [hc]

theorem collapseSpec_brace_ne (c2 : Char) (t2 : List Char) (hc2 : ¬ c2 = '}') :
    collapseSpec ('}' :: c2 :: t2) = '}' :: collapseSpec (c2 :: t2) := by
  rw [collapseSpec.eq_def]
  simp [hc2]

theorem collapse_eq : ∀ l, pyReplace l ['}', '}'] ['}'] = collapseSpec l := by
  intro l
  induction l using collapseSpec.induct with
  | case1 t ih =>
    simp only [pyReplace] at ih ⊢
    rw [replaceGo_cons_pos '}' ['}'] ['}'] '}' ('}' :: t) (by simp [isPrefixL])]
    simp only [List.length_singleton, List.drop_succ_cons, List.drop_zero,
      List.cons_append, List.nil_append]
    rw [ih, collapseSpec_pair]
  | case2 c t hne ih =>
    simp only [pyReplace] at ih ⊢
    by_cases hc : c = '}'
    · subst hc
      cases t with
      | nil => rfl
      | cons c2 t2 =>
        have hc2 : ¬ c2 = '}' := fun hh => hne t2 rfl (by rw [hh])
        have hnp : ¬ isPrefixL ['}', '}'] ('}' :: c2 :: t2) = true := by
          simp only [isPrefixL, Bool.and_eq_true, decide_eq_true_eq]
          intro hcontra
          exact hc2 hcontra.2.1.symm
        rw [replaceGo_cons_neg '}' ['}'] ['}'] '}' (c2 :: t2) hnp, ih,
          collapseSpec_brace_ne c2 t2 hc2]
    · rw [replaceGo_cons_neg '}' ['}'] ['}'] c t
          (isPrefixL_head_ne _ _ _ _ (fun hh => hc hh.symm)), ih,
        collapseSpec_ne c t hc]
  | case3 => rfl

theorem collapse_braceDoubled : ∀ l, collapseSpec (braceDoubled l) = l := by
  intro l
  induction l using braceDoubled.induct with
  | case1 => rfl
  | case2 rest ih =>
    have hb : braceDoubled ('}' :: rest) = '}' :: '}' :: braceDoubled rest := by
      simp [braceDoubled]
    rw [hb, collapseSpec_pair, ih]
  | case3 c rest hc ih =>
    have hb : braceDoubled (c :: rest) = c :: braceDoubled rest := by
      simp [braceDoubled, hc]
    rw [hb, collapseSpec_ne c _ hc, ih]

/-- C7: `cescape` is a left inverse of the escape-resolution of `colorize`
with color disabled, for every string: doubling every `@` and `}` and then
colorizing with color disabled reproduces the input byte for byte. -/
theorem colorize_cescape_left_inverse (s : String) (e : Bool) :
    colorize (cescape s) false e = .ok s := by
  have h := subScan_escaped e (cescape s) s.data
  rw [← cescape_data s] at h
  rw [colorize_ok_eq (cescape s) false e (braceDoubled s.data) h, collapse_eq,
    collapse_braceDoubled]

/-! ### Identity on non-markup text and the global brace collapse -/

theorem subScan_no_at (c e : Bool) (input : String) :
    ∀ l, '@' ∉ l → subScan c e input l = .ok l := by
  intro l
  induction l with
  | nil => intro _; exact subScan_nil c e input
  | cons ch t ih =>
    intro h
    simp only [List.mem_cons, not_or] at h
    have hch : ch ≠ '@' := fun hh => h.1 hh.symm
    rw [subScan_cons c e input ch t hch, ih h.2]

theorem collapseSpec_no_brace : ∀ l, '}' ∉ l → collapseSpec l = l := by
  intro l
  induction l with
  | nil => intro _; rfl
  | cons c t ih =>
    intro h
    simp only [List.mem_cons, not_or] at h
    have hc : c ≠ '}' := fun hh => h.1 hh.symm
    rw [collapseSpec_ne c t hc, ih h.2]

/-- C8: `colorize` is the identity on strings with no markup characters, and
on any `@`-free input it performs exactly the global doubled-brace collapse,
even in unmatched non-markup text; in particular `"a\x7d\x7db"` becomes `"a\x7db"`. -/
theorem colorize_nonmarkup_identity_and_collapse :
    (∀ (s : String) (c e : Bool), '@' ∉ s.data → '{' ∉ s.data → '}' ∉ s.data →
        colorize s c e = .ok s)
    ∧ (∀ (s : String) (c e : Bool), '@' ∉ s.data →
        colorize s c e = .ok (String.mk (collapseSpec s.data)))
    ∧ colorize "a\x7d\x7db" true false = .ok "a\x7db" := by
  refine ⟨?_, ?_, by decide⟩
  · intro s c e h1 _ h3
    rw [colorize_ok_eq s c e s.data (subScan_no_at c e s s.data h1), collapse_eq,
      collapseSpec_no_brace s.data h3]
  · intro s c e h1
    rw [colorize_ok_eq s c e s.data (subScan_no_at c e s s.data h1), collapse_eq]

theorem colorize_nonmarkup_identity_and_collapse_witness :
    colorize "hello" true false = .ok "hello"
    ∧ colorize "a\x7d\x7db" false true = .ok (String.mk (collapseSpec "a\x7d\x7db".data)) :=
  ⟨colorize_nonmarkup_identity_and_collapse.1 "hello" true false
      (by decide) (by decide) (by decide),
   colorize_nonmarkup_identity_and_collapse.2.1 "a\x7d\x7db" false true (by decide)⟩

/-! ### With color disabled, no new characters are produced -/

theorem escape_false (e : Bool) (attr : List Char) : escape false e attr = [] := rfl

theorem bodyPart_false (e : Bool) (bd : Option (List Char)) :
    bodyPart false e bd = bd.getD [] := by
  cases bd with
  | none => rfl
  | some t =>
    by_cases ht : t = []
    · subst ht; simp [bodyPart]
    · simp [bodyPart, ht, escape_false]

theorem transTok_styled_false_ok (e : Bool) (input : String) (st co : Option Char)
    (bd : Option (List Char)) (out : List Char)
    (h : transTok false e input (.styled st co bd) = .ok out) : out = bd.getD [] := by
  cases co with
  | some ch =>
    cases hco : colors ch with
    | none => simp [transTok, hco] at h
    | some nn =>
      simp [transTok, hco, escape_false, bodyPart_false] at h
      exact h.symm
  | none =>
    by_cases hall : st = none ∧ (none : Option Char) = none ∧ bd = none
    · simp [transTok, hall.1, hall.2.2] at h
    · have hall2 : ¬(st = none ∧ bd = none) := fun hcontra => hall ⟨hcontra.1, rfl, hcontra.2⟩
      simp [transTok, hall2, escape_false, bodyPart_false] at h
      exact h.symm

theorem bodyMatch_mem : ∀ cs b r, bodyMatch cs = some (b, r) →
    (∀ ch, ch ∈ b → ch ∈ cs) ∧ (∀ ch, ch ∈ r → ch ∈ cs) := by
  intro cs
  induction cs using bodyMatch.induct with
  | case1 => intro b r h; simp [bodyMatch] at h
  | case2 rest' b2 r2 hbm ih =>
    intro b r h
    simp [bodyMatch, hbm] at h
    obtain ⟨hb, hr⟩ := h
    subst hb
    subst hr
    constructor
    · intro ch hch
      simp only [List.mem_cons] at hch ⊢
      rcases hch with rfl | rfl | hch
      · exact Or.inl rfl
      · exact Or.inl rfl
      · exact Or.inr (Or.inr ((ih b2 r2 hbm).1 ch hch))
    · intro ch hch
      simp only [List.mem_cons]
      exact Or.inr (Or.inr ((ih b2 r2 hbm).2 ch hch))
  | case3 rest' hbm ih =>
    intro b r h
    simp [bodyMatch, hbm] at h
    obtain ⟨hb, hr⟩ := h
    subst hb
    subst hr
    constructor
    · intro ch hch; simp at hch
    · intro ch hch
      simp only [List.mem_cons] at hch ⊢
      rcases hch with rfl | hch
      · exact Or.inl rfl
      · exact Or.inr (Or.inr hch)
  | case4 rest hne =>
    intro b r h
    cases rest with
    | nil =>
      simp [bodyMatch] at h
      obtain ⟨hb, hr⟩ := h
      subst hb
      subst hr
      constructor
      · intro ch hch; simp at hch
      · intro ch hch; simp at hch
    | cons c2 t =>
      have hc2 : c2 ≠ '}' := fun hh => hne t (by rw [hh])
      simp [bodyMatch, hc2] at h
      obtain ⟨hb, hr⟩ := h
      subst hb
      subst hr
      constructor
      · intro ch hch; simp at hch
      · intro ch hch
        exact List.mem_cons_of_mem _ hch
  | case5 c rest hc b2 r2 hbm ih =>
    intro b r h
    rw [bodyMatch.eq_def] at h
    simp [hc, hbm] at h
    obtain ⟨hb, hr⟩ := h
    subst hb
    subst hr
    constructor
    · intro ch hch
      simp only [List.mem_cons] at hch ⊢
      rcases hch with rfl | hch
      · exact Or.inl rfl
      · exact Or.inr ((ih b2 r2 hbm).1 ch hch)
    · intro ch hch
      exact List.mem_cons_of_mem _ ((ih b2 r2 hbm).2 ch hch)
  | case6 c rest hc hbm ih =>
    intro b r h
    rw [bodyMatch.eq_def] at h
    simp [hc, hbm] at h

theorem splitStyle_mem (cs : List Char) : ∀ ch ∈ (splitStyle cs).2, ch ∈ cs := by
  cases cs with
  | nil => simp [splitStyle]
  | cons c r =>
    by_cases h : isStyleChar c
    · simp only [splitStyle, if_pos h]
      intro ch hch
      exact List.mem_cons_of_mem _ hch
    · simp only [splitStyle, if_neg h]
      intro ch hch
      exact hch

theorem splitColor_mem (cs : List Char) : ∀ ch ∈ (splitColor cs).2, ch ∈ cs := by
  cases cs with
  | nil => simp [splitColor]
  | cons c r =>
    by_cases h : isAsciiAlpha c
    · simp only [splitColor, if_pos h]
      intro ch hch
      exact List.mem_cons_of_mem _ hch
    · simp only [splitColor, if_neg h]
      intro ch hch
      exact hch

theorem splitBody_mem (cs : List Char) :
    (∀ ch ∈ (splitBody cs).2, ch ∈ cs)
    ∧ (∀ b, (splitBody cs).1 = some b → ∀ ch ∈ b, ch ∈ cs) := by
  cases cs with
  | nil => simp [splitBody]
  | cons c r =>
    by_cases hc : c = '{'
    · subst hc
      cases hbm : bodyMatch r with
      | some pr =>
        obtain ⟨b0, rest0⟩ := pr
        have hm := bodyMatch_mem r b0 rest0 hbm
        simp only [splitBody, eq_self_iff_true, if_true, hbm]
        constructor
        · intro ch hch
          exact List.mem_cons_of_mem _ (hm.2 ch hch)
        · intro b hb ch hch
          injection hb with hb
          subst hb
          exact List.mem_cons_of_mem _ (hm.1 ch hch)
      | none =>
        simp only [splitBody, eq_self_iff_true, if_true, hbm]
        constructor
        · intro ch hch
          exact hch
        · intro b hb
          exact Option.noConfusion hb
    · simp only [splitBody, if_neg hc]
      constructor
      · intro ch hch
        exact hch
      · intro b hb
        exact Option.noConfusion hb

theorem parseStyled_rest_mem (cs : List Char) : ∀ ch ∈ (parseStyled cs).2, ch ∈ cs := by
  intro ch hch
  simp only [parseStyled] at hch
  exact splitStyle_mem cs ch (splitColor_mem _ ch ((splitBody_mem _).1 ch hch))

theorem parseStyled_body_mem (cs : List Char) (st co : Option Char) (b : List Char)
    (h : (parseStyled cs).1 = .styled st co (some b)) : ∀ ch ∈ b, ch ∈ cs := by
  intro ch hch
  simp only [parseStyled, MarkupToken.styled.injEq] at h
  exact splitStyle_mem cs ch (splitColor_mem _ ch ((splitBody_mem _).2 b h.2.2 ch hch))

theorem parseTok_rest_mem (cs : List Char) : ∀ ch ∈ (parseTok cs).2, ch ∈ cs := by
  cases cs with
  | nil => exact parseStyled_rest_mem []
  | cons c rest =>
    by_cases h1 : c = '@'
    · subst h1
      intro ch hch
      exact List.mem_cons_of_mem _ hch
    · by_cases h2 : c = '.'
      · subst h2
        intro ch hch
        exact List.mem_cons_of_mem _ hch
      · have heq : parseTok (c :: rest) = parseStyled (c :: rest) := by
          rw [parseTok.eq_def]
          simp [h1, h2]
        rw [heq]
        exact parseStyled_rest_mem _

theorem parseTok_body_mem (cs : List Char) (st co : Option Char) (b : List Char)
    (h : (parseTok cs).1 = .styled st co (some b)) : ∀ ch ∈ b, ch ∈ cs := by
  cases cs with
  | nil => exact parseStyled_body_mem [] st co b h
  | cons c rest =>
    by_cases h1 : c = '@'
    · subst h1
      exact absurd h (by simp [parseTok])
    · by_cases h2 : c = '.'
      · subst h2
        exact absurd h (by simp [parseTok])
      · have heq : parseTok (c :: rest) = parseStyled (c :: rest) := by
          rw [parseTok.eq_def]
          simp [h1, h2]
        rw [heq] at h
        exact parseStyled_body_mem _ st co b h

theorem subScan_false_subset (e : Bool) (input : String) :
    ∀ n l, l.length ≤ n → ∀ out, subScan false e input l = .ok out →
      ∀ ch ∈ out, ch ∈ l := by
  intro n
  induction n with
  | zero =>
    intro l hl out h ch hch
    have hnil : l = [] := by cases l with | nil => rfl | cons a b => simp at hl
    subst hnil
    rw [subScan_nil] at h
    injection h with h2
    subst h2
    simp at hch
  | succ n ih =>
    intro l hl out h ch hch
    cases l with
    | nil =>
      rw [subScan_nil] at h
      injection h with h2
      subst h2
      simp at hch
    | cons c0 t =>
      simp only [List.length_cons] at hl
      by_cases hc0 : c0 = '@'
      · subst hc0
        rw [subScan_at] at h
        cases htr : transTok false e input (parseTok t).1 with
        | error err =>
          rw [htr] at h
          exact Except.noConfusion h
        | ok s =>
          rw [htr] at h
          cases hrc : subScan false e input (parseTok t).2 with
          | error err =>
            rw [hrc] at h
            exact Except.noConfusion h
          | ok rest =>
            rw [hrc] at h
            injection h with h2
            subst h2
            rcases List.mem_append.mp hch with hs | hr
            · cases htok : (parseTok t).1 with
              | lit =>
                rw [htok] at htr
                simp only [transTok] at htr
                injection htr with h3
                rw [← h3] at hs
                simp only [List.mem_singleton] at hs
                subst hs
                exact List.mem_cons_self _ _
              | reset =>
                rw [htok] at htr
                simp only [transTok, escape_false] at htr
                injection htr with h3
                rw [← h3] at hs
                simp at hs
              | styled st co bd =>
                rw [htok] at htr
                have hout := transTok_styled_false_ok e input st co bd s htr
                cases bd with
                | none =>
                  rw [hout] at hs
                  simp at hs
                | some b =>
                  rw [hout] at hs
                  simp only [Option.getD_some] at hs
                  exact List.mem_cons_of_mem _ (parseTok_body_mem t st co b htok ch hs)
            · have hsub := ih (parseTok t).2 (le_trans (parseTok_length t) (by omega))
                rest hrc ch hr
              exact List.mem_cons_of_mem _ (parseTok_rest_mem t ch hsub)
      · rw [subScan_cons _ _ _ _ _ hc0] at h
        cases hrc : subScan false e input t with
        | error err =>
          rw [hrc] at h
          exact Except.noConfusion h
        | ok rest =>
          rw [hrc] at h
          injection h with h2
          subst h2
          rcases List.mem_cons.mp hch with rfl | hch2
          · exact List.mem_cons_self _ _
          · exact List.mem_cons_of_mem _ (ih t (by omega) rest hrc ch hch2)

theorem collapseSpec_mem : ∀ l ch, ch ∈ collapseSpec l → ch ∈ l := by
  intro l
  induction l using collapseSpec.induct with
  | case1 t ih =>
    intro ch hch
    rw [collapseSpec_pair] at hch
    rcases List.mem_cons.mp hch with rfl | hch2
    · exact List.mem_cons_self _ _
    · exact List.mem_cons_of_mem _ (List.mem_cons_of_mem _ (ih ch hch2))
  | case2 c t hne ih =>
    intro ch hch
    have heq : collapseSpec (c :: t) = c :: collapseSpec t := by
      by_cases hc : c = '}'
      · subst hc
        cases t with
        | nil => rfl
        | cons c2 t2 =>
          have hc2 : ¬ c2 = '}' := fun hh => hne t2 rfl (by rw [hh])
          exact collapseSpec_brace_ne c2 t2 hc2
      · exact collapseSpec_ne c t hc
    rw [heq] at hch
    rcases List.mem_cons.mp hch with rfl | hch2
    · exact List.mem_cons_self _ _
    · exact List.mem_cons_of_mem _ (ih ch hch2)
  | case3 =>
    intro ch hch
    simp [collapseSpec] at hch

theorem colorize_ok_inv (s : String) (c e : Bool) (out : String)
    (h : colorize s c e = .ok out) :
    ∃ l, subScan c e s s.data = .ok l ∧ out = String.mk (pyReplace l ['}', '}'] ['}']) := by
  unfold colorize at h
  cases hsub : subScan c e s s.data with
  | error err =>
    rw [hsub] at h
    exact Except.noConfusion h
  | ok l =>
    rw [hsub] at h
    injection h with h2
    exact ⟨l, rfl, h2.symm⟩

/-- C3 counterexample: with color disabled, a `StyledRun` token with a body
translates to the body text, not to the empty string. -/
theorem styled_body_translation_not_empty :
    transTok false false "@b{hi}" (.styled none (some 'b') (some ['h', 'i'])) = .ok ['h', 'i']
    ∧ (['h', 'i'] : List Char) ≠ [] := by
  decide

/-- C3 (amended): with color disabled, a `Reset` token translates to the
empty string and a `StyledRun` translates to exactly its body text (empty
when absent), so no control bytes are ever emitted: `colorize "@." false`
is `""`, and any ESC-free input that colorizes successfully yields an
ESC-free output, for either value of the extra-escape flag. -/
theorem no_color_no_escape_output (e : Bool) :
    (∀ input, transTok false e input MarkupToken.reset = .ok [])
    ∧ (∀ (input : String) (st co : Option Char) (bd : Option (List Char)) (out : List Char),
        transTok false e input (.styled st co bd) = .ok out → out = bd.getD [])
    ∧ colorize "@." false e = .ok ""
    ∧ (∀ (s out : String), escChar ∉ s.data → colorize s false e = .ok out →
        escChar ∉ out.data) := by
  refine ⟨?_, ?_, ?_, ?_⟩
  · intro input
    simp [transTok, escape_false]
  · intro input st co bd out h
    exact transTok_styled_false_ok e input st co bd out h
  · cases e <;> decide
  · intro s out hesc hok
    obtain ⟨l, hsub, hout⟩ := colorize_ok_inv s false e out hok
    subst hout
    intro hch
    rw [show (String.mk (pyReplace l ['}', '}'] ['}'])).data = pyReplace l ['}', '}'] ['}']
      from rfl, collapse_eq] at hch
    exact hesc (subScan_false_subset e s s.data.length s.data le_rfl l hsub escChar
      (collapseSpec_mem l escChar hch))

theorem no_color_no_escape_output_witness :
    transTok false false "abc" MarkupToken.reset = .ok []
    ∧ (['h', 'i'] : List Char) = (some ['h', 'i'] : Option (List Char)).getD []
    ∧ colorize "@." false false = .ok ""
    ∧ escChar ∉ ("ab" : String).data :=
  ⟨(no_color_no_escape_output false).1 "abc",
   (no_color_no_escape_output false).2.1 "abc" none (some 'b') (some ['h', 'i']) ['h', 'i']
     (by decide),
   (no_color_no_escape_output false).2.2.1,
   (no_color_no_escape_output false).2.2.2 "ab" "ab" (by decide) (by decide)⟩

/-! ### Centering counts only visible length -/

theorem escClosedB_append_right : ∀ a b : List Char,
    escClosedB (a ++ b) = true → escClosedB b = true := by
  intro a
  induction a with
  | nil => intro b h; exact h
  | cons c t ih =>
    intro b h
    simp only [List.cons_append, escClosedB, Bool.and_eq_true] at h
    exact ih b h.2

theorem mem_m_split : ∀ l : List Char, 'm' ∈ l →
    ∃ mid rest, l = mid ++ 'm' :: rest ∧ 'm' ∉ mid := by
  intro l
  induction l with
  | nil => intro h; simp at h
  | cons c t ih =>
    intro h
    by_cases hc : c = 'm'
    · subst hc
      exact ⟨[], t, rfl, by simp⟩
    · have hm : 'm' ∈ t := by
        rcases List.mem_cons.mp h with hh | h2
        · exact absurd hh.symm hc
        · exact h2
      obtain ⟨mid, rest, rfl, hmid⟩ := ih hm
      refine ⟨c :: mid, rest, rfl, ?_⟩
      simp only [List.mem_cons, not_or]
      exact ⟨fun hh => hc hh.symm, hmid⟩

theorem csNorm_append_closed :
    ∀ nn l, l.length ≤ nn → escClosedB l = true →
      ∀ t, csNorm (l ++ t) = csNorm l ++ csNorm t := by
  intro nn
  induction nn with
  | zero =>
    intro l hl _ t
    have hnil : l = [] := by cases l with | nil => rfl | cons a b => simp at hl
    subst hnil
    simp [csNorm]
  | succ nn ih =>
    intro l hl hcl t
    cases l with
    | nil => simp [csNorm]
    | cons c l2 =>
      simp only [List.length_cons] at hl
      simp only [escClosedB, Bool.and_eq_true] at hcl
      by_cases hc : c = escChar
      · subst hc
        have hm : 'm' ∈ l2 := by
          have h1 := hcl.1
          simp only [Bool.or_eq_true, decide_eq_true_eq] at h1
          rcases h1 with h1 | h1
          · exact absurd rfl h1
          · exact h1
        obtain ⟨mid, rest, rfl, hmid⟩ := mem_m_split l2 hm
        rw [List.cons_append]
        have hassoc : (mid ++ 'm' :: rest) ++ t = mid ++ 'm' :: (rest ++ t) := by simp
        rw [hassoc, csNorm_esc_skip mid _ hmid, csNorm_esc_skip mid rest hmid]
        have hrcl : escClosedB rest = true := by
          have : (mid ++ ['m']) ++ rest = mid ++ 'm' :: rest := by simp
          exact escClosedB_append_right (mid ++ ['m']) rest (by rw [this]; exact hcl.2)
        have hrlen : rest.length ≤ nn := by
          have := hl
          simp only [List.length_append, List.length_cons] at this
          omega
        exact ih rest hrlen hrcl t
      · rw [List.cons_append, csNorm_cons_ne c _ hc, csNorm_cons_ne c _ hc,
          ih l2 (by omega) hcl.2 t, List.cons_append]

theorem csNorm_replicate_append (fc : Char) (h : fc ≠ escChar) :
    ∀ n l, csNorm (List.replicate n fc ++ l) = List.replicate n fc ++ csNorm l := by
  intro n
  induction n with
  | zero => intro l; simp
  | succ n ih =>
    intro l
    simp only [List.replicate_succ, List.cons_append]
    rw [csNorm_cons_ne fc _ h, ih]

theorem clen_shape (s : String) (fc : Char) (hfe : fc ≠ escChar)
    (hcl : escClosedB s.data = true) (a b : Nat) :
    (csNorm (List.replicate a fc ++ s.data ++ List.replicate b fc)).length =
      a + clen s + b := by
  rw [List.append_assoc, csNorm_replicate_append fc hfe a _,
    csNorm_append_closed s.data.length s.data le_rfl hcl _,
    csNorm_no_esc (List.replicate b fc) (by
      intro hmem
      exact hfe (List.eq_of_mem_replicate hmem).symm)]
  simp only [List.length_append, List.length_replicate, clen]
  omega

theorem isPrefixL_self_append : ∀ p x : List Char, isPrefixL p (p ++ x) = true := by
  intro p
  induction p with
  | nil => intro x; rfl
  | cons c t ih =>
    intro x
    simp [isPrefixL, ih x]

theorem replaceGo_skip_fc (ps rep : List Char) (fc : Char) (h : fc ≠ '*') :
    ∀ a rest, replaceGo '*' ps rep (List.replicate a fc ++ rest) =
      List.replicate a fc ++ replaceGo '*' ps rep rest := by
  intro a
  induction a with
  | zero => intro rest; simp
  | succ a ih =>
    intro rest
    simp only [List.replicate_succ, List.cons_append]
    rw [replaceGo_cons_neg _ _ _ _ _ (isPrefixL_head_ne _ _ _ _ (fun hh => h hh.symm)), ih]

theorem replaceGo_stars_block (j : Nat) (rep : List Char) (fc : Char) (hfc : fc ≠ '*')
    (b : Nat) :
    replaceGo '*' (List.replicate j '*') rep
      ('*' :: (List.replicate j '*' ++ List.replicate b fc)) = rep ++ List.replicate b fc := by
  rw [replaceGo_cons_pos _ _ _ _ _ (by simp [isPrefixL, isPrefixL_self_append])]
  rw [List.drop_left]
  have hskip := replaceGo_skip_fc (List.replicate j '*') rep fc hfc b []
  simp only [List.append_nil, replaceGo_nil] at hskip
  rw [hskip]

theorem pyReplace_stars (j : Nat) (rep : List Char) (fc : Char) (hfc : fc ≠ '*')
    (a b : Nat) :
    pyReplace (List.replicate a fc ++ ('*' :: List.replicate j '*') ++ List.replicate b fc)
      ('*' :: List.replicate j '*') rep = List.replicate a fc ++ (rep ++ List.replicate b fc) := by
  simp only [pyReplace]
  rw [List.append_assoc, List.cons_append, replaceGo_skip_fc _ _ _ hfc a _,
    replaceGo_stars_block j rep fc hfc b]

theorem pyCenter_gt (l : List Char) (width : Nat) (fc : Char) (h : l.length < width) :
    ∃ a b, pyCenter l width fc = List.replicate a fc ++ l ++ List.replicate b fc
      ∧ a + b = width - l.length := by
  unfold pyCenter
  rw [if_neg (by omega)]
  refine ⟨(width - l.length) / 2 + ((width - l.length) &&& width &&& 1),
    (width - l.length) - ((width - l.length) / 2 + ((width - l.length) &&& width &&& 1)),
    rfl, ?_⟩
  have hx : (width - l.length) &&& width &&& 1 ≤ 1 := Nat.and_le_right
  omega

/-- C9 counterexample: with the ESC control byte as the fill character, the
centered result of a perfectly ordinary 2-column string has visible length
2, not the requested width 5 — the padding bytes merge with the following
`m` into a stripped escape sequence. -/
theorem ccenter_esc_fillchar_cex :
    clen "mn" = 2 ∧ clen "mn" ≤ 5 ∧ clen (ccenter "mn" 5 escChar) = 2
    ∧ (2 : Nat) ≠ 5 := by
  decide

/-- C9 (amended): provided the fill character is neither `*` nor ESC and
every ESC in `s` is followed by a later `m`, `ccenter` centers counting
only visible length: for `1 ≤ clen s ≤ width` the result is `s` with
fill-character padding split around it and visible width exactly `width`;
in particular the rendered forms of `"@*r{x}"` for both color settings have
visible width 5 when centered to width 5. -/
theorem ccenter_visible_width (s : String) (width : Nat) (fc : Char)
    (hfc : fc ≠ '*') (hfe : fc ≠ escChar) (hcl : escClosedB s.data = true)
    (hk1 : 1 ≤ clen s) (hkw : clen s ≤ width) :
    (∃ a b, ccenter s width fc = String.mk
        (List.replicate a fc ++ s.data ++ List.replicate b fc)
      ∧ a + clen s + b = width
      ∧ clen (ccenter s width fc) = width)
    ∧ colorize "@*r{x}" true false = .ok "\x1b[1;31mx\x1b[0m"
    ∧ colorize "@*r{x}" false false = .ok "x"
    ∧ clen (ccenter "\x1b[1;31mx\x1b[0m" 5 ' ') = 5
    ∧ clen (ccenter "x" 5 ' ') = 5 := by
  refine ⟨?_, by decide, by decide, by decide, by decide⟩
  have hks : List.replicate (clen s) '*' = '*' :: List.replicate (clen s - 1) '*' := by
    cases hc : clen s with
    | zero => omega
    | succ k2 => simp [List.replicate_succ]
  have main : ∃ a b, ccenter s width fc = String.mk
      (List.replicate a fc ++ s.data ++ List.replicate b fc)
      ∧ a + clen s + b = width := by
    by_cases hw : width ≤ clen s
    · have hwk : width = clen s := le_antisymm hw hkw
      refine ⟨0, 0, ?_, ?_⟩
      · simp only [ccenter]
        have hpc : pyCenter (List.replicate (clen s) '*') width fc =
            List.replicate (clen s) '*' := by
          unfold pyCenter
          rw [if_pos (by simp only [List.length_replicate]; exact hw)]
        rw [hpc, hks]
        simp only [pyReplace]
        have hsb := replaceGo_stars_block (clen s - 1) s.data fc hfc 0
        simp only [List.replicate_zero, List.append_nil] at hsb
        rw [hsb]
        simp
      · have : width = clen s := le_antisymm hw hkw
        omega
    · obtain ⟨a, b, hpc, hab⟩ := pyCenter_gt (List.replicate (clen s) '*') width fc
        (by simp only [List.length_replicate]; omega)
      refine ⟨a, b, ?_, ?_⟩
      · simp only [ccenter]
        rw [hpc, hks, pyReplace_stars (clen s - 1) s.data fc hfc a b]
        simp [List.append_assoc]
      · simp only [List.length_replicate] at hab
        omega
  obtain ⟨a, b, hsh, hsum⟩ := main
  refine ⟨a, b, hsh, hsum, ?_⟩
  rw [hsh]
  show (csNorm (List.replicate a fc ++ s.data ++ List.replicate b fc)).length = width
  rw [clen_shape s fc hfe hcl a b]
  omega

theorem ccenter_visible_width_witness :
    (∃ a b, ccenter "\x1b[1;31mx\x1b[0m" 5 ' ' = String.mk
        (List.replicate a ' ' ++ ("\x1b[1;31mx\x1b[0m" : String).data ++ List.replicate b ' ')
      ∧ a + clen "\x1b[1;31mx\x1b[0m" + b = 5
      ∧ clen (ccenter "\x1b[1;31mx\x1b[0m" 5 ' ') = 5)
    ∧ colorize "@*r{x}" true false = .ok "\x1b[1;31mx\x1b[0m"
    ∧ colorize "@*r{x}" false false = .ok "x"
    ∧ clen (ccenter "\x1b[1;31mx\x1b[0m" 5 ' ') = 5
    ∧ clen (ccenter "x" 5 ' ') = 5 :=
  ccenter_visible_width "\x1b[1;31mx\x1b[0m" 5 ' ' (by decide) (by decide) (by decide)
    (by decide) (by decide)

end Canary
